import Mathlib

/-! rcpd: a shallow embedding of the remote-copy daemon

The daemon (`rcpd.go`) reads a null-delimited preamble from a connection,
classifies the command as receive (`rcp -t `) or send (`rcp -f `), resolves the
client path against the configured root and moves bytes between the
connection and the file system.

Conventions of the embedding:

* a byte is a natural number (`Byte`); Go strings and byte slices are
  `List Byte`; text literals are written `str "..."` (ASCII only);
* the build is the Unix one: the path separator is `/` and there is no volume
  name;
* the connection is a `World`: the bytes the client sends before a deadline
  expires, what happens when they run out (end of file or a stall), the sizes
  offered by successive `Read` calls, the bytes written so far, the file
  system and the trace of file-system calls;
* the functions of the Go standard library that the daemon calls (`bytes`,
  `path/filepath`, `strconv`, `fmt`) are modelled after their source and
  documentation, each under the name it has there;
* logging and the refreshing of deadlines have no effect on the state and are
  left out; a write to the connection succeeds;
* loops that read from the connection take fuel; every iteration consumes a
  byte of input or leaves the loop, so `input.length + 1` is enough.
-/

namespace Rcpd

/-- A byte of a Go string or byte slice. -/
abbrev Byte := Nat

/-- The bytes of an ASCII literal. -/
def str (s : String) : List Byte := s.toList.map Char.toNat

/-! ## Go standard library: `bytes` -/

/-- Library `bytes.HasPrefix`. -/
def HasPrefix (s pre : List Byte) : Bool := pre.isPrefixOf s

/-- Library `bytes.HasSuffix`. -/
def HasSuffix (s suf : List Byte) : Bool := suf.isSuffixOf s

/-- Library `bytes.Contains`: `sub` occurs in `s` as a contiguous block. -/
def Contains : List Byte → List Byte → Bool
  | [], sub => sub.isEmpty
  | c :: cs, sub => sub.isPrefixOf (c :: cs) || Contains cs sub

/-- Library `bytes.TrimPrefix`. -/
def TrimPrefix (s pre : List Byte) : List Byte :=
  if HasPrefix s pre then s.drop pre.length else s

/-- Library `bytes.Split` with a one-byte separator: one part more than there
are separators. -/
def Split (sep : Byte) : List Byte → List (List Byte)
  | [] => [[]]
  | c :: cs =>
    if c = sep then [] :: Split sep cs
    else
      match Split sep cs with
      | p :: ps => (c :: p) :: ps
      | [] => [[c]]

/-- Cut at the first separator: the part before it and the part after it. -/
def cutAt (sep : Byte) : List Byte → Option (List Byte × List Byte)
  | [] => none
  | c :: cs =>
    if c = sep then some ([], cs)
    else
      match cutAt sep cs with
      | some (a, b) => some (c :: a, b)
      | none => none

/-- Library `bytes.SplitN` with a one-byte separator: at most `n` parts, the
last one unsplit. -/
def SplitN (sep : Byte) : Nat → List Byte → List (List Byte)
  | 0, _ => []
  | 1, s => [s]
  | n + 2, s =>
    match cutAt sep s with
    | none => [s]
    | some (a, rest) => a :: SplitN sep (n + 1) rest

/-! ## Go standard library: `path/filepath` (Unix) -/

/-- The path separator. -/
def Separator : Byte := 47

/-- The byte of a dot. -/
def dot : Byte := 46

/-- The `..` case of `Clean`: drop the last byte of the output, then keep
dropping while the write index is above `dotdot` and the byte at the index is
not a separator. `w` is the write index after the first decrement. -/
def backtrack (buf : List Byte) (dotdot : Nat) : Nat → Nat
  | 0 => 0
  | w + 1 =>
    if dotdot < w + 1 ∧ buf.getD (w + 1) 0 ≠ Separator then backtrack buf dotdot w
    else w + 1

/-- The main loop of `Clean`: `path` is what is left to read, `out` the bytes
written so far, `dotdot` the index where `..` must stop. Each iteration
reads at least one byte, so fuel equal to the length of the path suffices. -/
def cleanLoop (rooted : Bool) : Nat → List Byte → List Byte → Nat → List Byte
  | 0, _, out, _ => out
  | _ + 1, [], out, _ => out
  | fuel + 1, c :: rest, out, dotdot =>
    if c = Separator then
      -- empty path element
      cleanLoop rooted fuel rest out dotdot
    else if c = dot ∧ (rest = [] ∨ rest.head? = some Separator) then
      -- . element
      cleanLoop rooted fuel rest out dotdot
    else if c = dot ∧ rest.head? = some dot ∧
        (rest.tail = [] ∨ rest.tail.head? = some Separator) then
      -- .. element: remove to last separator
      if dotdot < out.length then
        cleanLoop rooted fuel rest.tail
          (out.take (backtrack out dotdot (out.length - 1))) dotdot
      else if ¬ rooted then
        let out1 := if 0 < out.length then out ++ [Separator] else out
        let out2 := out1 ++ [dot, dot]
        cleanLoop rooted fuel rest.tail out2 out2.length
      else
        cleanLoop rooted fuel rest.tail out dotdot
    else
      -- real path element: add slash if needed, copy element
      let out1 :=
        if (rooted ∧ out.length ≠ 1) ∨ (¬ rooted ∧ out.length ≠ 0) then out ++ [Separator]
        else out
      cleanLoop rooted fuel ((c :: rest).dropWhile (fun b => b != Separator))
        (out1 ++ (c :: rest).takeWhile (fun b => b != Separator)) dotdot

/-- Library `filepath.Clean`. -/
def Clean (path : List Byte) : List Byte :=
  if path = [] then [dot]
  else
    let rooted := path.head? = some Separator
    let out :=
      if rooted then cleanLoop true path.length path.tail [Separator] 1
      else cleanLoop false path.length path [] 0
    if out = [] then [dot] else out

/-- Library `filepath.Join` of two elements: empty elements are ignored, the
rest is joined with separators and cleaned. -/
def Join (a b : List Byte) : List Byte :=
  if a ≠ [] then Clean (a ++ [Separator] ++ b)
  else if b ≠ [] then Clean b
  else []

/-- Library `filepath.Base`: strip trailing separators, keep what follows the
last separator; `.` for the empty path, `/` for a path of separators only. -/
def Base (path : List Byte) : List Byte :=
  if path = [] then [dot]
  else
    let stripped := (path.reverse.dropWhile (fun b => b == Separator)).reverse
    let last := (stripped.reverse.takeWhile (fun b => b != Separator)).reverse
    if last = [] then [Separator] else last

/-- Library `filepath.Dir`: all but the last element, cleaned. -/
def Dir (path : List Byte) : List Byte :=
  Clean (path.reverse.dropWhile (fun b => b != Separator)).reverse

/-! ## Go standard library: `bytes.TrimSpace`

White space is decided rune by rune on the UTF-8 decoding of the slice
(`unicode.IsSpace`); a byte sequence that is not valid UTF-8 decodes to the
replacement rune, which is not white space. So a white-space rune is present
at the start (at the end) of a slice exactly when one of the encodings below
is a prefix (a suffix) of it. -/

/-- The UTF-8 encodings of the runes for which `unicode.IsSpace` holds:
`\t \n \v \f \r`, space, U+0085, U+00A0, U+1680, U+2000..U+200A, U+2028,
U+2029, U+202F, U+205F, U+3000. -/
def spaceRunes : List (List Byte) :=
  [[9], [10], [11], [12], [13], [32],
   [0xC2, 0x85], [0xC2, 0xA0], [0xE1, 0x9A, 0x80],
   [0xE2, 0x80, 0x80], [0xE2, 0x80, 0x81], [0xE2, 0x80, 0x82], [0xE2, 0x80, 0x83],
   [0xE2, 0x80, 0x84], [0xE2, 0x80, 0x85], [0xE2, 0x80, 0x86], [0xE2, 0x80, 0x87],
   [0xE2, 0x80, 0x88], [0xE2, 0x80, 0x89], [0xE2, 0x80, 0x8A],
   [0xE2, 0x80, 0xA8], [0xE2, 0x80, 0xA9], [0xE2, 0x80, 0xAF],
   [0xE2, 0x81, 0x9F], [0xE3, 0x80, 0x80]]

/-- Width in bytes of the white-space rune at the start of `s`, 0 when the
first rune is not white space. -/
def leadingSpace (s : List Byte) : Nat :=
  match spaceRunes.find? (fun e => e.isPrefixOf s) with
  | some e => e.length
  | none => 0

/-- Width in bytes of the white-space rune at the end of `s`, 0 when the last
rune is not white space. -/
def trailingSpace (s : List Byte) : Nat :=
  match spaceRunes.find? (fun e => e.isSuffixOf s) with
  | some e => e.length
  | none => 0

/-- Library `bytes.TrimLeftFunc` with `unicode.IsSpace`. -/
def trimLeftSpace : Nat → List Byte → List Byte
  | 0, s => s
  | fuel + 1, s =>
    if leadingSpace s = 0 then s else trimLeftSpace fuel (s.drop (leadingSpace s))

/-- Library `bytes.TrimRightFunc` with `unicode.IsSpace`. -/
def trimRightSpace : Nat → List Byte → List Byte
  | 0, s => s
  | fuel + 1, s =>
    if trailingSpace s = 0 then s
    else trimRightSpace fuel (s.take (s.length - trailingSpace s))

/-- Library `bytes.TrimSpace`: all leading and trailing white space sliced
off. -/
def TrimSpace (s : List Byte) : List Byte :=
  let l := trimLeftSpace s.length s
  trimRightSpace l.length l

/-! ## Go standard library: `strconv.ParseInt` -/

/-- The two kinds of `strconv.NumError`. -/
inductive NumErr where
  | syntaxErr
  | rangeErr
  deriving DecidableEq, Repr

/-- The value of a digit byte in `ParseUint`: `0-9`, then letters of either
case from 10. -/
def digitVal (c : Byte) : Option Nat :=
  if 48 ≤ c ∧ c ≤ 57 then some (c - 48)
  else if 97 ≤ c ∧ c ≤ 122 then some (c - 97 + 10)
  else if 65 ≤ c ∧ c ≤ 90 then some (c - 65 + 10)
  else none

/-- The digit loop of `strconv.ParseUint` for an explicit base: `n` is the
unsigned 64-bit accumulator, `maxVal` is `2^bitSize - 1`. -/
def parseUintLoop (base maxVal : Nat) : List Byte → Nat → Except NumErr Nat
  | [], n => .ok n
  | c :: cs, n =>
    match digitVal c with
    | none => .error .syntaxErr
    | some d =>
      if base ≤ d then .error .syntaxErr
      else if (2 ^ 64 - 1) / base + 1 ≤ n then .error .rangeErr
      else
        let n0 := n * base
        let n1 := (n0 + d) % 2 ^ 64
        if n1 < n0 ∨ maxVal < n1 then .error .rangeErr
        else parseUintLoop base maxVal cs n1

/-- Library `strconv.ParseUint` for a base between 2 and 36 and a bit size
between 1 and 64. -/
def ParseUint (s : List Byte) (base bitSize : Nat) : Except NumErr Nat :=
  if s = [] then .error .syntaxErr
  else parseUintLoop base (2 ^ bitSize - 1) s 0

/-- Library `strconv.ParseInt` for a base between 2 and 36 and a bit size
between 1 and 64: an optional sign, then `ParseUint`, then the range check
of the signed type. -/
def ParseInt (s : List Byte) (base bitSize : Nat) : Except NumErr Int :=
  if s = [] then .error .syntaxErr
  else
    let neg := s.head? = some 45
    let body := if s.head? = some 43 ∨ s.head? = some 45 then s.tail else s
    match ParseUint body base bitSize with
    | .error .syntaxErr => .error .syntaxErr
    | .error .rangeErr => .error .rangeErr
    | .ok un =>
      let cutoff := 2 ^ (bitSize - 1)
      if ¬ neg ∧ cutoff ≤ un then .error .rangeErr
      else if neg ∧ cutoff < un then .error .rangeErr
      else .ok (if neg then - (un : Int) else (un : Int))

/-! ## Go standard library: `fmt.Sprintf` -/

/-- Digits of `n` in `base` (at most 10), most significant first, pushed in
front of `acc`. -/
def fmtDigits (base : Nat) : Nat → Nat → List Byte → List Byte
  | 0, _, acc => acc
  | fuel + 1, n, acc =>
    if n / base = 0 then (48 + n % base) :: acc
    else fmtDigits base fuel (n / base) ((48 + n % base) :: acc)

/-- Verb `%d` on a non-negative integer. -/
def fmtDec (n : Nat) : List Byte := fmtDigits 10 (n + 1) n []

/-- Verb `%04o` on an unsigned integer: octal, padded with zeros on the left
to at least four digits. -/
def fmtOct04 (n : Nat) : List Byte :=
  let ds := fmtDigits 8 (n + 1) n []
  List.replicate (4 - ds.length) 48 ++ ds

/-! ## The connection and the file system -/

/-- What the file system holds at a path that `os.Open` can open. -/
structure File where
  /-- Mode bits reported by `Stat`. -/
  mode : Nat
  /-- Size reported by `Stat`. -/
  size : Nat
  /-- The bytes that reading the file yields. -/
  content : List Byte
  /-- Whether `Stat` on the open file succeeds. -/
  statOk : Bool
  /-- Whether `Read` on the open file succeeds (it fails on a directory). -/
  readOk : Bool
  deriving DecidableEq, Repr

/-- A call into the file system. -/
inductive FsOp where
  | osOpen (path : List Byte)
  | stat (path : List Byte)
  | mkdirAll (path : List Byte) (perm : Nat)
  | openFile (path : List Byte) (perm : Nat)
  | write (path : List Byte) (data : List Byte)
  deriving DecidableEq, Repr

/-- The file system as the daemon sees it: which paths open for reading, and
which of the mutating calls succeed. -/
structure FileSys where
  lookup : List Byte → Option File
  mkdirAllOk : List Byte → Bool
  openFileOk : List Byte → Bool
  writeOk : List Byte → Bool

/-- The state of one connection and of its surroundings. -/
structure World where
  /-- Bytes the client sends that the buffered reader has not handed out. -/
  input : List Byte
  /-- Once `input` is used up: `true` when the peer has closed (reads return
  `io.EOF`), `false` when it stalls (reads fail on the deadline). -/
  peerClosed : Bool
  /-- Byte counts offered by the successive `reader.Read` calls. -/
  reads : List Nat
  /-- Bytes written to the connection, oldest first. -/
  output : List Byte
  fs : FileSys
  /-- File-system calls made, oldest first. -/
  ops : List FsOp

/-- Method `conn.Write`. -/
def World.write (w : World) (bs : List Byte) : World :=
  { w with output := w.output ++ bs }

/-- Record a file-system call. -/
def World.call (w : World) (op : FsOp) : World :=
  { w with ops := w.ops ++ [op] }

/-- The bytes written to the file at `path`, in order. -/
def written (path : List Byte) : List FsOp → List Byte
  | [] => []
  | .write p data :: ops => if p = path then data ++ written path ops else written path ops
  | _ :: ops => written path ops

/-- Size of the working buffer of both transfer loops. -/
def bufferSize : Nat := 32 * 1024

/-- Number of bytes a `reader.Read` into the working buffer returns when input
is available: what the delivery offers, at least one byte, at most the
buffer and at most what is there. -/
def readCount (w : World) : Nat :=
  max 1 (min (w.reads.headD bufferSize) (min bufferSize w.input.length))

/-! ## rcpd.go: receive mode -/

/-- The errors `handleBinaryFileTransfer` returns. -/
inductive TransferErr where
  | invalidFormat
  | invalidMode
  | invalidSize
  | outsideRoot
  | mkdirFailed
  | createFailed
  | readFailed
  | writeFailed
  deriving DecidableEq, Repr

/-- Lines 175-190 of `handleBinaryFileTransfer`: the header after its leading
`C` is trimmed and split on spaces into at most three parts, which are the
octal mode, the decimal size and the file name. -/
def parseFileInfo (fileInfo : List Byte) : Except TransferErr (Int × Int × List Byte) :=
  match SplitN 32 3 (TrimSpace (fileInfo.drop 1)) with
  | [p0, p1, p2] =>
    match ParseInt p0 8 32 with
    | .error _ => .error .invalidMode
    | .ok fileMode =>
      match ParseInt p1 10 64 with
      | .error _ => .error .invalidSize
      | .ok fileSize => .ok (fileMode, fileSize, p2)
  | _ => .error .invalidFormat

/-- Lines 216-233 of `handleBinaryFileTransfer`: while fewer than `fileSize`
bytes were received, read into the working buffer and write what was read to
the file. Yields `none` on `break` or normal exit, the error otherwise. -/
def receiveLoop (filePath : List Byte) (fileSize : Int) :
    Nat → Int → World → Option (Option TransferErr × World)
  | 0, _, _ => none
  | fuel + 1, totalReceived, w =>
    if totalReceived < fileSize then
      if w.input = [] then
        if w.peerClosed then some (none, w) else some (some .readFailed, w)
      else
        let n := readCount w
        let w1 := { w with input := w.input.drop n, reads := w.reads.tail }
        let w2 := w1.call (.write filePath (w.input.take n))
        if w.fs.writeOk filePath then receiveLoop filePath fileSize fuel (totalReceived + n) w2
        else some (some .writeFailed, w2)
    else some (none, w)

/-- Function `handleBinaryFileTransfer`: one file of a receive session. -/
def handleBinaryFileTransfer (root targetPath fileInfo : List Byte) (w : World) :
    Option (Option TransferErr × World) :=
  match parseFileInfo fileInfo with
  | .error e => some (some e, w)
  | .ok (fileMode, fileSize, fileName) =>
    let filePath := Clean (Join targetPath fileName)
    if ¬ HasPrefix filePath root then some (some .outsideRoot, w)
    else
      let dir := Dir filePath
      let w1 := w.call (.mkdirAll dir 0o755)
      if ¬ w.fs.mkdirAllOk dir then some (some .mkdirFailed, w1)
      else
        let w2 := w1.call (.openFile filePath (fileMode % 2 ^ 32).toNat)
        if ¬ w.fs.openFileOk filePath then some (some .createFailed, w2)
        else
          let w3 := w2.write [0]
          match receiveLoop filePath fileSize (w3.input.length + 1) 0 w3 with
          | none => none
          | some (some e, w4) => some (some e, w4)
          | some (none, w4) =>
            -- read the null byte that indicates end of file, then acknowledge
            let w5 := { w4 with input := w4.input.tail }
            some (none, w5.write [0])

/-- The loop of `handleReceiveFile` (lines 142-171): read a line, trim it,
and act on its first byte. -/
def receiveSession (root fullTargetPath : List Byte) : Nat → World → Option World
  | 0, _ => none
  | fuel + 1, w =>
    match cutAt 10 w.input with
    | none => some { w with input := [] }
    | some (line, rest) =>
      let command := TrimSpace (line ++ [10])
      let w1 := { w with input := rest }
      if HasPrefix command (str "C") then
        match handleBinaryFileTransfer root fullTargetPath command w1 with
        | none => none
        | some (some _, w2) => some w2
        | some (none, w2) => receiveSession root fullTargetPath fuel w2
      else if HasPrefix command (str "E") then some (w1.write [0])
      else receiveSession root fullTargetPath fuel w1

/-- Lines 117-126 of `handleReceiveFile`: the resolved target path. -/
def receiveTarget (root command : List Byte) : List Byte :=
  let targetPath := TrimPrefix command (str "rcp -t ")
  let targetPath :=
    if targetPath.length = 0 ∨ targetPath = str "." then str "/" else targetPath
  Clean (Join root targetPath)

/-- Function `handleReceiveFile`. -/
def handleReceiveFile (root command : List Byte) (w : World) : Option World :=
  let fullTargetPath := receiveTarget root command
  if ¬ HasPrefix fullTargetPath root then some w
  else
    let w1 := (w.write [0]).write [0]
    receiveSession root fullTargetPath (w1.input.length + 1) w1

/-! ## rcpd.go: send mode -/

/-- Lines 313-333 of `handleSendFile`: while fewer than `size` bytes were
sent, read the file into the working buffer and write what was read to the
connection. `remaining` is the unread part of the file. The flag is `false`
when reading the file failed. -/
def sendLoop (size : Nat) (readOk : Bool) : Nat → Nat → List Byte → World → Option (Bool × World)
  | 0, _, _, _ => none
  | fuel + 1, totalSent, remaining, w =>
    if totalSent < size then
      if ¬ readOk then some (false, w)
      else
        let n := min bufferSize remaining.length
        if n = 0 then some (true, w)
        else sendLoop size readOk fuel (totalSent + n) (remaining.drop n)
          (w.write (remaining.take n))
    else some (true, w)

/-- Lines 262-266 of `handleSendFile`: the resolved source path. -/
def sendSource (root command : List Byte) : List Byte :=
  Clean (Join root (TrimPrefix command (str "rcp -f ")))

/-- The header line `fmt.Sprintf("C%04o %d %s\n", perm, size, base)`. -/
def fileInfoStr (perm size : Nat) (base : List Byte) : List Byte :=
  str "C" ++ fmtOct04 perm ++ str " " ++ fmtDec size ++ str " " ++ base ++ str "\n"

/-- Function `handleSendFile`. -/
def handleSendFile (root command : List Byte) (w : World) : Option World :=
  let fullSourcePath := sendSource root command
  if ¬ HasPrefix fullSourcePath root then some w
  else
    let w1 := w.call (.osOpen fullSourcePath)
    match w.fs.lookup fullSourcePath with
    | none => some (w1.write [1])
    | some file =>
      let w2 := w1.call (.stat fullSourcePath)
      if ¬ file.statOk then some (w2.write [1])
      else
        let w3 := w2.write [0]
        let w4 := w3.write (fileInfoStr (file.mode % 512) file.size (Base fullSourcePath))
        match w4.input with
        | [] => some w4
        | ack :: rest =>
          let w5 := { w4 with input := rest }
          if ack ≠ 0 then some w5
          else
            match sendLoop file.size file.readOk (file.content.length + 1) 0 file.content w5 with
            | none => none
            | some (false, w6) => some w6
            | some (true, w6) =>
              let w7 := w6.write [0]
              some { w7 with input := w7.input.tail }

/-! ## rcpd.go: the connection handler -/

/-- Lines 74-89 of `handleConnection`: read byte by byte until what was read
contains `rcp ` and ends in a null byte. Yields the preamble and the unread
input, or nothing when the input ends first. -/
def readCommand : List Byte → List Byte → Option (List Byte × List Byte)
  | [], _ => none
  | b :: rest, fullCommand =>
    let fullCommand := fullCommand ++ [b]
    if Contains fullCommand (str "rcp ") && HasSuffix fullCommand [0] then
      some (fullCommand, rest)
    else readCommand rest fullCommand

/-- Function `handleConnection`. -/
def handleConnection (root : List Byte) (w : World) : Option World :=
  match readCommand w.input [] with
  | none => some { w with input := [] }
  | some (fullCommand, rest) =>
    let w1 := { w with input := rest }
    let parts := Split 0 fullCommand
    if parts.length < 4 then some w1
    else
      let command := parts.getD 3 []
      if HasPrefix command (str "rcp -t ") then handleReceiveFile root command w1
      else if HasPrefix command (str "rcp -f ") then handleSendFile root command w1
      else some w1

/-! ## Notions the properties are stated with -/

/-- The four octal digits of `m`, most significant first: `m` as a
zero-padded four-digit octal numeral when `m` is below `8^4`. -/
def octal4 (m : Nat) : List Byte :=
  [48 + m / 512 % 8, 48 + m / 64 % 8, 48 + m / 8 % 8, 48 + m % 8]

/-- The value of a string of digits read in `base`. -/
def numVal (base : Nat) (ds : List Byte) : Nat :=
  ds.foldl (fun acc c => acc * base + (c - 48)) 0

/-- A numeral of `base` (at most ten): a non-empty string of the digits `0`
to `base - 1`. -/
def isNumeral (base : Nat) (ds : List Byte) : Prop :=
  ds ≠ [] ∧ ∀ c : Nat, c ∈ ds → 48 ≤ c ∧ c < 48 + base

instance (base : Nat) (ds : List Byte) : Decidable (isNumeral base ds) := by
  unfold isNumeral
  infer_instance

/-- The slice ends in a white-space rune. -/
def endsInSpace (s : List Byte) : Bool := spaceRunes.any (fun e => e.isSuffixOf s)

/-! ## Concrete worlds used by the examples -/

/-- A file system that holds the 100-byte file `/srv/data/report.txt` with
mode 0644 and the file `/srv/data2/secret`, and in which every mutating call
succeeds. -/
def demoFs : FileSys where
  lookup p :=
    if p = str "/srv/data/report.txt" then
      some { mode := 0o644, size := 100, content := List.replicate 100 120,
             statOk := true, readOk := true }
    else if p = str "/srv/data2/secret" then
      some { mode := 0o600, size := 3, content := str "key", statOk := true, readOk := true }
    else none
  mkdirAllOk _ := true
  openFileOk _ := true
  writeOk _ := true

/-- A fresh connection over `demoFs` on which the client sends `input` and
then closes; `reads` are the sizes the reader is offered. -/
def demoWorld (input : List Byte) (reads : List Nat) : World :=
  { input := input, peerClosed := true, reads := reads, output := [], fs := demoFs, ops := [] }

/-- The file `/srv/data/report.txt` of `demoFs`. -/
def demoReport : File :=
  { mode := 0o644, size := 100, content := List.replicate 100 120, statOk := true, readOk := true }

/-- The root directory of the examples. -/
def demoRoot : List Byte := str "/srv/data"

/-! ## Theorems -/

/-- C4: in send mode, when the source path passes the containment check but
the file cannot be opened, the server writes the single byte 0x01 and nothing
else, consumes no further client input, and terminates. -/
theorem handleSendFile_open_failure (root command : List Byte) (w : World)
    (hin : HasPrefix (sendSource root command) root = true)
    (hopen : w.fs.lookup (sendSource root command) = none) :
    ∃ w1, handleSendFile root command w = some w1 ∧
      w1.output = w.output ++ [1] ∧ w1.input = w.input := by
  refine ⟨(w.call (.osOpen (sendSource root command))).write [1], ?_, rfl, rfl⟩
  simp [handleSendFile, hin, hopen]

/-- Witness of C4 on `rcp -f missing.txt` under `/srv/data`. -/
theorem handleSendFile_open_failure_witness :
    HasPrefix (sendSource demoRoot (str "rcp -f missing.txt")) demoRoot = true ∧
    (demoWorld [0, 0] []).fs.lookup (sendSource demoRoot (str "rcp -f missing.txt")) = none ∧
    ∃ w1, handleSendFile demoRoot (str "rcp -f missing.txt") (demoWorld [0, 0] []) = some w1 ∧
      w1.output = (demoWorld [0, 0] []).output ++ [1] ∧ w1.input = (demoWorld [0, 0] []).input :=
  ⟨by decide, by decide,
    handleSendFile_open_failure demoRoot (str "rcp -f missing.txt") (demoWorld [0, 0] [])
      (by decide) (by decide)⟩

/-- C5 as stated fails: on `rcp -f ../../etc/passwd` under `/srv/data` the
containment check rejects the source path and the server writes nothing, not
the byte 0x01. -/
theorem handleSendFile_escape_counterexample :
    HasPrefix (sendSource demoRoot (str "rcp -f ../../etc/passwd")) demoRoot = false ∧
    (handleSendFile demoRoot (str "rcp -f ../../etc/passwd") (demoWorld [] [])).map
      World.output = some [] := by
  decide

/-- C5 amended: in send mode, when the source path fails the containment
check, the server terminates at once: it writes no byte, reads nothing and
makes no file-system call. -/
theorem handleSendFile_escape_silent (root command : List Byte) (w : World)
    (hout : HasPrefix (sendSource root command) root = false) :
    handleSendFile root command w = some w := by
  simp [handleSendFile, hout]

/-- Witness of C5 amended on `rcp -f ../../etc/passwd`. -/
theorem handleSendFile_escape_silent_witness :
    HasPrefix (sendSource demoRoot (str "rcp -f ../../etc/passwd")) demoRoot = false ∧
    handleSendFile demoRoot (str "rcp -f ../../etc/passwd") (demoWorld [] []) =
      some (demoWorld [] []) :=
  ⟨by decide,
    handleSendFile_escape_silent demoRoot (str "rcp -f ../../etc/passwd") (demoWorld [] [])
      (by decide)⟩

/-- C6: in receive mode, when the target path fails the containment check,
the session ends with the state unchanged: no byte written (not even the
handshake), no input read, no file-system call. -/
theorem handleReceiveFile_escape_silent (root command : List Byte) (w : World)
    (hout : HasPrefix (receiveTarget root command) root = false) :
    handleReceiveFile root command w = some w := by
  simp [handleReceiveFile, hout]

/-- Witness of C6 on `rcp -t ../../tmp` under `/srv/data`. -/
theorem handleReceiveFile_escape_silent_witness :
    HasPrefix (receiveTarget demoRoot (str "rcp -t ../../tmp")) demoRoot = false ∧
    handleReceiveFile demoRoot (str "rcp -t ../../tmp") (demoWorld (str "E\n") []) =
      some (demoWorld (str "E\n") []) :=
  ⟨by decide,
    handleReceiveFile_escape_silent demoRoot (str "rcp -t ../../tmp") (demoWorld (str "E\n") [])
      (by decide)⟩

/-- C9: when the completed preamble splits on null bytes into fewer than four
fields, or its field 3 begins with neither `rcp -t ` nor `rcp -f `, the
handler returns having only consumed the preamble: it writes no byte and
makes no file-system call. -/
theorem handleConnection_malformed (root : List Byte) (w : World)
    (fullCommand rest : List Byte)
    (hread : readCommand w.input [] = some (fullCommand, rest))
    (hbad : (Split 0 fullCommand).length < 4 ∨
      (HasPrefix ((Split 0 fullCommand).getD 3 []) (str "rcp -t ") = false ∧
       HasPrefix ((Split 0 fullCommand).getD 3 []) (str "rcp -f ") = false)) :
    ∃ w1, handleConnection root w = some w1 ∧
      w1.output = w.output ∧ w1.ops = w.ops ∧ w1.input = rest := by
  refine ⟨{ w with input := rest }, ?_, rfl, rfl, rfl⟩
  rcases hbad with h | ⟨h1, h2⟩
  · simp [handleConnection, hread, h]
  · by_cases h : (Split 0 fullCommand).length < 4
    · simp [handleConnection, hread, h]
    · simp only [handleConnection, hread, if_neg h, h1, h2]
      simp

/-- Witness of C9 on a preamble whose field 3 is `rcp -x foo`. -/
theorem handleConnection_malformed_witness :
    readCommand (demoWorld (str "0\x00u\x00u\x00rcp -x foo\x00E\n") []).input [] =
      some (str "0\x00u\x00u\x00rcp -x foo\x00", str "E\n") ∧
    ((Split 0 (str "0\x00u\x00u\x00rcp -x foo\x00")).length < 4 ∨
      (HasPrefix ((Split 0 (str "0\x00u\x00u\x00rcp -x foo\x00")).getD 3 []) (str "rcp -t ") = false ∧
       HasPrefix ((Split 0 (str "0\x00u\x00u\x00rcp -x foo\x00")).getD 3 []) (str "rcp -f ") = false)) ∧
    ∃ w1, handleConnection demoRoot (demoWorld (str "0\x00u\x00u\x00rcp -x foo\x00E\n") []) = some w1 ∧
      w1.output = (demoWorld (str "0\x00u\x00u\x00rcp -x foo\x00E\n") []).output ∧
      w1.ops = (demoWorld (str "0\x00u\x00u\x00rcp -x foo\x00E\n") []).ops ∧
      w1.input = str "E\n" :=
  ⟨by decide, by decide,
    handleConnection_malformed demoRoot (demoWorld (str "0\x00u\x00u\x00rcp -x foo\x00E\n") [])
      (str "0\x00u\x00u\x00rcp -x foo\x00") (str "E\n") (by decide) (by decide)⟩

/-- C1 fails on the code: under root `/srv/data` the containment check of all
three sites accepts a path into the sibling directory `/srv/data2`, which is
neither the root nor the root followed by a separator; in receive mode the
file `/srv/data2/x` is created and written, in send mode the file
`/srv/data2/secret` is opened and its content sent. -/
theorem containment_accepts_sibling :
    (receiveTarget demoRoot (str "rcp -t ../data2") = str "/srv/data2" ∧
      HasPrefix (receiveTarget demoRoot (str "rcp -t ../data2")) demoRoot = true) ∧
    (Clean (Join demoRoot (str "../data2/x")) = str "/srv/data2/x" ∧
      HasPrefix (Clean (Join demoRoot (str "../data2/x"))) demoRoot = true) ∧
    (sendSource demoRoot (str "rcp -f ../data2/secret") = str "/srv/data2/secret" ∧
      HasPrefix (sendSource demoRoot (str "rcp -f ../data2/secret")) demoRoot = true) ∧
    (HasPrefix (str "/srv/data2") (demoRoot ++ [Separator]) = false ∧
      HasPrefix (str "/srv/data2/x") (demoRoot ++ [Separator]) = false ∧
      HasPrefix (str "/srv/data2/secret") (demoRoot ++ [Separator]) = false) ∧
    (handleBinaryFileTransfer demoRoot demoRoot (str "C0644 1 ../data2/x")
      (demoWorld (str "a\x00") [1])).map (fun r => (r.1, r.2.ops)) =
        some (none, [.mkdirAll (str "/srv/data2") 0o755, .openFile (str "/srv/data2/x") 0o644,
          .write (str "/srv/data2/x") (str "a")]) ∧
    (handleSendFile demoRoot (str "rcp -f ../data2/secret") (demoWorld [0, 0] [])).map
      World.output = some ([0] ++ str "C0600 3 secret\n" ++ str "key" ++ [0]) := by
  decide

/-- C2 fails on the code: for the header `C0644 5 hello.txt` and the stream
`world`, null byte, `E\n` offered to the reader in one piece, the loop writes
all eight bytes to `/srv/data/hello.txt`, not the five content bytes; with
the first read cut at five bytes the file gets exactly `world`. -/
theorem handleBinaryFileTransfer_overrun :
    (handleBinaryFileTransfer demoRoot demoRoot (str "C0644 5 hello.txt")
      (demoWorld (str "world\x00E\n") [])).map
        (fun r => (r.1, written (str "/srv/data/hello.txt") r.2.ops)) =
      some (none, str "world\x00E\n") ∧
    (handleBinaryFileTransfer demoRoot demoRoot (str "C0644 5 hello.txt")
      (demoWorld (str "world\x00E\n") [5])).map
        (fun r => (r.1, written (str "/srv/data/hello.txt") r.2.ops, r.2.input)) =
      some (none, str "world", str "E\n") := by
  decide

/-- A write leaves the unread input alone. -/
@[simp] theorem World.write_input (w : World) (bs : List Byte) :
    (w.write bs).input = w.input := rfl

/-- A write appends to the output. -/
@[simp] theorem World.write_output (w : World) (bs : List Byte) :
    (w.write bs).output = w.output ++ bs := rfl

/-- A file-system call leaves the unread input alone. -/
@[simp] theorem World.call_input (w : World) (op : FsOp) :
    (w.call op).input = w.input := rfl

/-- A file-system call leaves the output alone. -/
@[simp] theorem World.call_output (w : World) (op : FsOp) :
    (w.call op).output = w.output := rfl

/-- Writing no bytes leaves the world as it is. -/
theorem World.write_nil (w : World) : w.write [] = w := by
  simp [World.write]

/-- Two writes in a row are one write of the concatenation. -/
theorem World.write_write (w : World) (a b : List Byte) :
    (w.write a).write b = w.write (a ++ b) := by
  simp [World.write]

/-- When the file holds exactly the bytes still owed, the send loop writes them
all and nothing else. -/
theorem sendLoop_all (size : Nat) :
    ∀ (fuel totalSent : Nat) (remaining : List Byte) (w : World),
      remaining.length < fuel → totalSent + remaining.length = size →
      sendLoop size true fuel totalSent remaining w = some (true, w.write remaining) := by
  intro fuel
  induction fuel with
  | zero => intro _ _ _ h; omega
  | succ fuel ih =>
    intro totalSent remaining w hfuel hsize
    unfold sendLoop
    by_cases hlt : totalSent < size
    · have hpos : 0 < remaining.length := by omega
      have hn : min bufferSize remaining.length ≠ 0 := by
        unfold bufferSize; omega
      simp only [hlt, if_true, hn, if_false, Bool.not_true, Bool.false_eq_true, not_false_eq_true,
        not_true_eq_false]
      rw [ih (totalSent + min bufferSize remaining.length)
        (remaining.drop (min bufferSize remaining.length)) _
        (by simp only [List.length_drop]; unfold bufferSize; omega)
        (by simp only [List.length_drop]; unfold bufferSize; omega)]
      rw [World.write_write, List.take_append_drop]
    · have hl : remaining.length = 0 := by omega
      have h0 : remaining = [] := List.length_eq_zero.mp hl
      simp [hlt, h0, World.write_nil]

/-- Verb `%04o` yields the four octal digits for every value below `8^4`. -/
theorem fmtOct04_eq_octal4 (m : Nat) (h : m < 4096) : fmtOct04 m = octal4 m := by
  have h1 : m / 8 / 8 / 8 / 8 = 0 := by omega
  unfold fmtOct04 octal4
  by_cases a : m / 8 = 0
  · have e1 : m / 512 % 8 = 0 := by omega
    have e2 : m / 64 % 8 = 0 := by omega
    have e3 : m / 8 % 8 = 0 := by omega
    simp [fmtDigits, a, e1, e2, e3]
  · obtain ⟨f, hf⟩ : ∃ f, m + 1 = f + 4 := ⟨m - 3, by omega⟩
    rw [hf]
    by_cases b : m / 8 / 8 = 0
    · have e1 : m / 512 % 8 = 0 := by omega
      have e2 : m / 64 % 8 = 0 := by omega
      simp [fmtDigits, a, b, e1, e2]
    · by_cases c : m / 8 / 8 / 8 = 0
      · have e1 : m / 512 % 8 = 0 := by omega
        have e2 : m / 8 / 8 % 8 = m / 64 % 8 := by omega
        simp [fmtDigits, a, b, c, e1, e2]
      · have e1 : m / 8 / 8 / 8 % 8 = m / 512 % 8 := by omega
        have e2 : m / 8 / 8 % 8 = m / 64 % 8 := by omega
        simp [fmtDigits, a, b, c, h1, e1, e2]

/-- C3: in send mode, for a file under root that opens, stats and reads, with
permission bits `m` at most 0o777, size `n` and content `c` of length `n`,
when the client answers both acknowledgement reads with 0x00, the server
writes exactly: 0x00, the line `C`, `m` as four octal digits, a space, `n` in
decimal, a space, the base name of the resolved path, a newline, then the
bytes of `c`, then 0x00. -/
theorem handleSendFile_success (root command : List Byte) (w : World) (file : File)
    (rest : List Byte)
    (hin : HasPrefix (sendSource root command) root = true)
    (hfile : w.fs.lookup (sendSource root command) = some file)
    (hstat : file.statOk = true) (hread : file.readOk = true)
    (hmode : file.mode ≤ 0o777)
    (hsize : file.content.length = file.size)
    (hacks : w.input = 0 :: 0 :: rest) :
    ∃ w1, handleSendFile root command w = some w1 ∧
      w1.output = w.output ++ ([0] ++
        (str "C" ++ octal4 file.mode ++ str " " ++ fmtDec file.size ++ str " " ++
          Base (sendSource root command) ++ str "\n") ++
        file.content ++ [0]) ∧
      w1.input = rest := by
  have hm : file.mode % 512 = file.mode := Nat.mod_eq_of_lt (by omega)
  simp only [handleSendFile, hin, hfile, hstat, hread, World.write_input, World.call_input,
    hacks, not_true_eq_false, if_false, ne_eq, not_false_eq_true, Bool.not_true,
    Bool.false_eq_true]
  rw [sendLoop_all file.size _ 0 file.content _ (by omega) (by omega)]
  refine ⟨_, rfl, ?_, ?_⟩
  · simp [World.write, World.call, fileInfoStr, hm, fmtOct04_eq_octal4 file.mode (by omega)]
  · simp [World.write, World.call]

/-- Witness of C3: the 100-byte file `report.txt` with mode 0644 yields 0x00,
`C0644 100 report.txt\n`, the 100 bytes and 0x00. -/
theorem handleSendFile_success_witness :
    ∃ w1, handleSendFile demoRoot (str "rcp -f report.txt") (demoWorld [0, 0] []) = some w1 ∧
      w1.output = [0] ++ str "C0644 100 report.txt\n" ++ List.replicate 100 120 ++ [0] := by
  obtain ⟨w1, h1, h2, _⟩ := handleSendFile_success demoRoot (str "rcp -f report.txt")
    (demoWorld [0, 0] []) demoReport [] (by decide) (by decide) (by decide) (by decide)
    (by decide) (by decide) (by decide)
  exact ⟨w1, h1, h2.trans (by decide)⟩

/-! ### The preamble -/

/-- Function `Contains` decides whether `sub` is a contiguous block of `s`. -/
theorem Contains_iff (sub : List Byte) : ∀ s : List Byte, Contains s sub = true ↔ sub <:+: s
  | [] => by simp [Contains, List.isEmpty_iff]
  | c :: cs => by
    simp only [Contains, Bool.or_eq_true, List.isPrefixOf_iff_prefix, Contains_iff sub cs,
      List.infix_cons_iff]

/-- A block absent from a slice is absent from each of its prefixes. -/
theorem Contains_false_of_append (sub a b : List Byte) (h : Contains (a ++ b) sub = false) :
    Contains a sub = false := by
  cases hc : Contains a sub with
  | false => rfl
  | true =>
    have h1 : sub <:+: a ++ b :=
      List.IsInfix.trans ((Contains_iff sub a).mp hc) (List.prefix_append a b).isInfix
    rw [(Contains_iff sub (a ++ b)).mpr h1] at h
    exact absurd h (by decide)

/-- A slice whose last byte is not the null byte does not end in one. -/
theorem HasSuffix_snoc (acc : List Byte) (x : Byte) (hx : x ≠ 0) :
    HasSuffix (acc ++ [x]) [0] = false := by
  cases h : HasSuffix (acc ++ [x]) [0] with
  | false => rfl
  | true =>
    rw [HasSuffix, List.isSuffixOf_iff_suffix] at h
    obtain ⟨t, ht⟩ := h
    have := congrArg List.getLast? ht
    simp at this
    exact absurd this.symm hx

/-- A slice ending in the null byte has the null byte as suffix. -/
theorem HasSuffix_snoc_zero (acc : List Byte) : HasSuffix (acc ++ [0]) [0] = true := by
  rw [HasSuffix, List.isSuffixOf_iff_suffix]
  exact List.suffix_append acc [0]

/-- The scan reads on while what was read does not contain `rcp `. -/
theorem readCommand_skip_absent : ∀ (xs ys acc : List Byte),
    Contains (acc ++ xs) (str "rcp ") = false →
    readCommand (xs ++ ys) acc = readCommand ys (acc ++ xs)
  | [], ys, acc, _ => by simp
  | x :: xs, ys, acc, h => by
    have h1 : Contains (acc ++ [x]) (str "rcp ") = false :=
      Contains_false_of_append _ (acc ++ [x]) xs (by simpa using h)
    have h2 := readCommand_skip_absent xs ys (acc ++ [x]) (by simpa using h)
    simp only [List.cons_append, readCommand, h1, Bool.false_and, Bool.false_eq_true, if_false]
    simpa using h2

/-- The scan reads on over bytes that are not null. -/
theorem readCommand_skip_nonnull : ∀ (xs ys acc : List Byte), 0 ∉ xs →
    readCommand (xs ++ ys) acc = readCommand ys (acc ++ xs)
  | [], ys, acc, _ => by simp
  | x :: xs, ys, acc, h => by
    have hx : x ≠ 0 := fun e => h (by simp [e])
    have h2 := readCommand_skip_nonnull xs ys (acc ++ [x]) (fun e => h (by simp [e]))
    simp only [List.cons_append, readCommand, HasSuffix_snoc acc x hx, Bool.and_false,
      Bool.false_eq_true, if_false]
    simpa using h2

/-- Splitting on a byte cuts off a leading part that is free of it. -/
theorem Split_append_sep (sep : Byte) : ∀ (a b : List Byte), sep ∉ a →
    Split sep (a ++ sep :: b) = a :: Split sep b
  | [], b, _ => by simp [Split]
  | c :: a, b, h => by
    have hc : c ≠ sep := fun e => h (by simp [e])
    have ih := Split_append_sep sep a b (fun e => h (by simp [e]))
    simp [Split, hc, ih]

/-- The well-formed preamble is read up to its last null byte and splits into
its four fields and an empty fifth. -/
theorem preamble_read_split (f0 f1 f2 cmd rest : List Byte)
    (h0 : 0 ∉ f0) (h1 : 0 ∉ f1) (h2 : 0 ∉ f2) (hc : 0 ∉ cmd)
    (hpre : Contains (f0 ++ [0] ++ f1 ++ [0] ++ f2 ++ [0]) (str "rcp ") = false)
    (hcmd : str "rcp " <+: cmd) :
    readCommand (f0 ++ [0] ++ f1 ++ [0] ++ f2 ++ [0] ++ cmd ++ [0] ++ rest) [] =
      some (f0 ++ [0] ++ f1 ++ [0] ++ f2 ++ [0] ++ cmd ++ [0], rest) ∧
    Split 0 (f0 ++ [0] ++ f1 ++ [0] ++ f2 ++ [0] ++ cmd ++ [0]) = [f0, f1, f2, cmd, []] := by
  constructor
  · have e : f0 ++ [0] ++ f1 ++ [0] ++ f2 ++ [0] ++ cmd ++ [0] ++ rest =
        (f0 ++ [0] ++ f1 ++ [0] ++ f2 ++ [0]) ++ (cmd ++ (0 :: rest)) := by simp
    rw [e, readCommand_skip_absent _ _ [] (by simpa using hpre),
      readCommand_skip_nonnull cmd _ _ hc]
    have hin : Contains ([] ++ (f0 ++ [0] ++ f1 ++ [0] ++ f2 ++ [0]) ++ cmd ++ [0]) (str "rcp ")
        = true := by
      rw [Contains_iff]
      have := hcmd.isInfix
      exact List.IsInfix.trans this
        (List.IsInfix.trans (List.suffix_append _ cmd).isInfix (List.prefix_append _ [0]).isInfix)
    simp only [readCommand, hin, HasSuffix_snoc_zero, Bool.and_self, if_true]
    simp
  · have e : f0 ++ [0] ++ f1 ++ [0] ++ f2 ++ [0] ++ cmd ++ [0] =
        f0 ++ 0 :: (f1 ++ 0 :: (f2 ++ 0 :: (cmd ++ 0 :: []))) := by simp
    rw [e, Split_append_sep 0 f0 _ h0, Split_append_sep 0 f1 _ h1, Split_append_sep 0 f2 _ h2,
      Split_append_sep 0 cmd _ hc]
    rfl

/-- A block free of the separator that occurs in `a ++ sep :: b` occurs in
`a` or in `b`. -/
theorem infix_append_sep (sep : Byte) (sub : List Byte) (hs : sep ∉ sub) :
    ∀ (a b : List Byte), sub <:+: a ++ sep :: b → sub <:+: a ∨ sub <:+: b
  | [], b, h => by
    rcases List.infix_cons_iff.mp (by simpa using h) with hp | hi
    · rcases List.prefix_cons_iff.mp hp with e | ⟨t, e, _⟩
      · exact Or.inl (e ▸ List.nil_infix)
      · exact absurd (e ▸ List.mem_cons_self sep t) hs
    · exact Or.inr hi
  | c :: a, b, h => by
    rcases List.infix_cons_iff.mp (by simpa using h) with hp | hi
    · by_cases hl : sub.length ≤ (c :: a).length
      · have hq : c :: a <+: c :: (a ++ sep :: b) := ⟨sep :: b, by simp⟩
        exact Or.inl (List.prefix_of_prefix_length_le hp hq hl).isInfix
      · have hq : c :: a ++ [sep] <+: c :: (a ++ sep :: b) := ⟨b, by simp⟩
        have hsub : c :: a ++ [sep] <+: sub :=
          List.prefix_of_prefix_length_le hq hp (by simp at hl ⊢; omega)
        exact absurd (hsub.subset (by simp)) hs
    · rcases infix_append_sep sep sub hs a b hi with h1 | h2
      · exact Or.inl (List.IsInfix.trans h1 (List.suffix_cons c a).isInfix)
      · exact Or.inr h2

/-- When none of the three fields before the command contains `rcp `, the
preamble up to the command does not contain it. -/
theorem Contains_fields (f0 f1 f2 : List Byte)
    (hn0 : Contains f0 (str "rcp ") = false) (hn1 : Contains f1 (str "rcp ") = false)
    (hn2 : Contains f2 (str "rcp ") = false) :
    Contains (f0 ++ [0] ++ f1 ++ [0] ++ f2 ++ [0]) (str "rcp ") = false := by
  cases h : Contains (f0 ++ [0] ++ f1 ++ [0] ++ f2 ++ [0]) (str "rcp ") with
  | false => rfl
  | true =>
    exfalso
    have hz : (0 : Byte) ∉ str "rcp " := by decide
    have e : f0 ++ [0] ++ f1 ++ [0] ++ f2 ++ [0] = f0 ++ 0 :: (f1 ++ 0 :: (f2 ++ 0 :: [])) := by
      simp
    rw [Contains_iff, e] at h
    rcases infix_append_sep 0 _ hz _ _ h with a | a
    · rw [(Contains_iff _ _).mpr a] at hn0; exact absurd hn0 (by decide)
    · rcases infix_append_sep 0 _ hz _ _ a with b | b
      · rw [(Contains_iff _ _).mpr b] at hn1; exact absurd hn1 (by decide)
      · rcases infix_append_sep 0 _ hz _ _ b with c | c
        · rw [(Contains_iff _ _).mpr c] at hn2; exact absurd hn2 (by decide)
        · exact absurd (List.infix_nil.mp c) (by decide)

/-- Trimming a present prefix leaves the remainder. -/
theorem TrimPrefix_append (pre p : List Byte) : TrimPrefix (pre ++ p) pre = p := by
  have h : HasPrefix (pre ++ p) pre = true := by
    rw [HasPrefix, List.isPrefixOf_iff_prefix]; exact List.prefix_append pre p
  simp [TrimPrefix, h]

/-- C7 as stated fails: with first field `rcp ` the scan stops at the first
null byte, the preamble has two fields, and nothing is dispatched, although
field 3 of the stream is the command `rcp -t x`; a receive session on that
command would have written the handshake. -/
theorem handleConnection_dispatch_counterexample :
    readCommand (str "rcp " ++ [0] ++ [] ++ [0] ++ [] ++ [0] ++ str "rcp -t x" ++ [0] ++ str "E\n")
        [] = some (str "rcp \x00", str "\x00\x00rcp -t x\x00E\n") ∧
    (handleConnection demoRoot (demoWorld
      (str "rcp " ++ [0] ++ [] ++ [0] ++ [] ++ [0] ++ str "rcp -t x" ++ [0] ++ str "E\n") [])).map
        World.output = some [] ∧
    (handleReceiveFile demoRoot (str "rcp -t x") (demoWorld (str "E\n") [])).map
        World.output = some [0, 0, 0] := by
  decide

/-- C7 amended: for a preamble `f0 0 f1 0 f2 0 cmd 0` whose fields hold no null
byte, whose first three fields do not contain `rcp `, and whose `cmd` begins
with `rcp -t ` or `rcp -f `, the handler reads exactly the preamble, takes
`cmd` as field 3, and runs the receive session (prefix `rcp -t `) or the send
session (prefix `rcp -f `) on it, whose path argument is the rest of `cmd`
after the seven bytes of the prefix. -/
theorem handleConnection_dispatch (root : List Byte) (w : World)
    (f0 f1 f2 cmd rest : List Byte)
    (h0 : 0 ∉ f0) (h1 : 0 ∉ f1) (h2 : 0 ∉ f2) (hc : 0 ∉ cmd)
    (hn0 : Contains f0 (str "rcp ") = false) (hn1 : Contains f1 (str "rcp ") = false)
    (hn2 : Contains f2 (str "rcp ") = false)
    (hin : w.input = f0 ++ [0] ++ f1 ++ [0] ++ f2 ++ [0] ++ cmd ++ [0] ++ rest) :
    (∀ p, cmd = str "rcp -t " ++ p →
      readCommand w.input [] = some (f0 ++ [0] ++ f1 ++ [0] ++ f2 ++ [0] ++ cmd ++ [0], rest) ∧
      (Split 0 (f0 ++ [0] ++ f1 ++ [0] ++ f2 ++ [0] ++ cmd ++ [0])).getD 3 [] = cmd ∧
      handleConnection root w = handleReceiveFile root cmd { w with input := rest } ∧
      TrimPrefix cmd (str "rcp -t ") = p) ∧
    (∀ p, cmd = str "rcp -f " ++ p →
      readCommand w.input [] = some (f0 ++ [0] ++ f1 ++ [0] ++ f2 ++ [0] ++ cmd ++ [0], rest) ∧
      (Split 0 (f0 ++ [0] ++ f1 ++ [0] ++ f2 ++ [0] ++ cmd ++ [0])).getD 3 [] = cmd ∧
      handleConnection root w = handleSendFile root cmd { w with input := rest } ∧
      TrimPrefix cmd (str "rcp -f ") = p) := by
  have hpre := Contains_fields f0 f1 f2 hn0 hn1 hn2
  constructor
  · intro p hp
    have hcmd : str "rcp " <+: cmd := ⟨str "-t " ++ p, by rw [hp]; rfl⟩
    obtain ⟨hr, hs⟩ := preamble_read_split f0 f1 f2 cmd rest h0 h1 h2 hc hpre hcmd
    have ht : HasPrefix cmd (str "rcp -t ") = true := by
      rw [HasPrefix, List.isPrefixOf_iff_prefix]; exact ⟨p, hp.symm⟩
    refine ⟨hin ▸ hr, by rw [hs]; rfl, ?_, by rw [hp]; exact TrimPrefix_append _ p⟩
    simp only [handleConnection, hin, hr, hs]
    simp [ht]
  · intro p hp
    have hcmd : str "rcp " <+: cmd := ⟨str "-f " ++ p, by rw [hp]; rfl⟩
    obtain ⟨hr, hs⟩ := preamble_read_split f0 f1 f2 cmd rest h0 h1 h2 hc hpre hcmd
    have ht : HasPrefix cmd (str "rcp -f ") = true := by
      rw [HasPrefix, List.isPrefixOf_iff_prefix]; exact ⟨p, hp.symm⟩
    have hnt : HasPrefix cmd (str "rcp -t ") = false := by
      rw [hp]; rfl
    refine ⟨hin ▸ hr, by rw [hs]; rfl, ?_, by rw [hp]; exact TrimPrefix_append _ p⟩
    simp only [handleConnection, hin, hr, hs]
    simp [ht, hnt]

/-- Witness of C7 amended on the preamble `0`, `u`, `u`, `rcp -t .`. -/
theorem handleConnection_dispatch_witness :
    readCommand (demoWorld (str "0\x00u\x00u\x00rcp -t .\x00E\n") []).input [] =
      some (str "0" ++ [0] ++ str "u" ++ [0] ++ str "u" ++ [0] ++ str "rcp -t ." ++ [0],
        str "E\n") ∧
    (Split 0 (str "0" ++ [0] ++ str "u" ++ [0] ++ str "u" ++ [0] ++ str "rcp -t ." ++ [0])).getD
      3 [] = str "rcp -t ." ∧
    handleConnection demoRoot (demoWorld (str "0\x00u\x00u\x00rcp -t .\x00E\n") []) =
      handleReceiveFile demoRoot (str "rcp -t .")
        { demoWorld (str "0\x00u\x00u\x00rcp -t .\x00E\n") [] with input := str "E\n" } ∧
    TrimPrefix (str "rcp -t .") (str "rcp -t ") = str "." :=
  (handleConnection_dispatch demoRoot (demoWorld (str "0\x00u\x00u\x00rcp -t .\x00E\n") [])
    (str "0") (str "u") (str "u") (str "rcp -t .") (str "E\n")
    (by decide) (by decide) (by decide) (by decide) (by decide) (by decide) (by decide)
    (by decide)).1 (str ".") (by decide)

/-! ### Clean on a rooted path -/

/-- The part of a list before the first element failing `p` is not changed by
what follows that element. -/
theorem takeWhile_append_stop (p : Byte → Bool) (a : Byte) (m : List Byte) (ha : p a = false) :
    ∀ l : List Byte, (l ++ a :: m).takeWhile p = l.takeWhile p
  | [] => by simp [List.takeWhile, ha]
  | x :: l => by
    have ih := takeWhile_append_stop p a m ha l
    by_cases hx : p x = true
    · simp [List.takeWhile, hx, ih]
    · simp [List.takeWhile, hx]

/-- Dropping up to the first element failing `p` keeps what follows it. -/
theorem dropWhile_append_stop (p : Byte → Bool) (a : Byte) (m : List Byte) (ha : p a = false) :
    ∀ l : List Byte, (l ++ a :: m).dropWhile p = l.dropWhile p ++ a :: m
  | [] => by simp [List.dropWhile, ha]
  | x :: l => by
    have ih := dropWhile_append_stop p a m ha l
    by_cases hx : p x = true
    · simp [List.dropWhile, hx, ih]
    · simp [List.dropWhile, hx]

/-- Dropping a path element skips its first byte. -/
theorem dropWhile_cons_ne (c : Byte) (rest : List Byte) (hc : c ≠ Separator) :
    (c :: rest).dropWhile (fun b => b != Separator) =
      rest.dropWhile (fun b => b != Separator) := by
  have hb : (c != Separator) = true := by simpa using hc
  simp [List.dropWhile_cons, hb]

/-- More fuel than the length of the path does not change the result of the
loop of `Clean`. -/
theorem cleanLoop_fuel (rooted : Bool) : ∀ (fuel : Nat) (path out : List Byte) (dotdot : Nat),
    path.length ≤ fuel →
    cleanLoop rooted (fuel + 1) path out dotdot = cleanLoop rooted fuel path out dotdot := by
  intro fuel
  induction fuel with
  | zero =>
    intro path out dotdot h
    have : path = [] := List.length_eq_zero.mp (by omega)
    subst this
    simp [cleanLoop]
  | succ fuel ih =>
    intro path out dotdot h
    cases path with
    | nil => simp [cleanLoop]
    | cons c rest =>
      have hr : rest.length ≤ fuel := by simpa using h
      have ht : rest.tail.length ≤ fuel := by simp; omega
      by_cases hc : c = Separator
      · rw [cleanLoop, cleanLoop]
        simp only [hc, if_true, ih _ _ _ hr]
      · have hd : ((c :: rest).dropWhile (fun b => b != Separator)).length ≤ fuel := by
          rw [dropWhile_cons_ne c rest hc]
          exact le_trans (List.dropWhile_sublist _).length_le hr
        rw [cleanLoop, cleanLoop]
        simp only [ih _ _ _ hr, ih _ _ _ ht, ih _ _ _ hd]

/-- Any fuel from the length of the path on gives the same result. -/
theorem cleanLoop_fuel_add (rooted : Bool) (fuel : Nat) (path out : List Byte) (dotdot : Nat)
    (h : path.length ≤ fuel) : ∀ k : Nat,
    cleanLoop rooted (fuel + k) path out dotdot = cleanLoop rooted fuel path out dotdot
  | 0 => rfl
  | k + 1 => by
    rw [← Nat.add_assoc, cleanLoop_fuel rooted (fuel + k) path out dotdot (by omega)]
    exact cleanLoop_fuel_add rooted fuel path out dotdot h k

/-- One iteration of the loop of `Clean` on a non-empty rest of the path. -/
theorem cleanLoop_cons (rooted : Bool) (fuel : Nat) (c : Byte) (rest out : List Byte)
    (dotdot : Nat) :
    cleanLoop rooted (fuel + 1) (c :: rest) out dotdot =
      if c = Separator then cleanLoop rooted fuel rest out dotdot
      else if c = dot ∧ (rest = [] ∨ rest.head? = some Separator) then
        cleanLoop rooted fuel rest out dotdot
      else if c = dot ∧ rest.head? = some dot ∧
          (rest.tail = [] ∨ rest.tail.head? = some Separator) then
        if dotdot < out.length then
          cleanLoop rooted fuel rest.tail
            (out.take (backtrack out dotdot (out.length - 1))) dotdot
        else if ¬ rooted then
          cleanLoop rooted fuel rest.tail
            ((if 0 < out.length then out ++ [Separator] else out) ++ [dot, dot])
            ((if 0 < out.length then out ++ [Separator] else out) ++ [dot, dot]).length
        else
          cleanLoop rooted fuel rest.tail out dotdot
      else
        cleanLoop rooted fuel ((c :: rest).dropWhile (fun b => b != Separator))
          ((if (rooted ∧ out.length ≠ 1) ∨ (¬ rooted ∧ out.length ≠ 0) then out ++ [Separator]
            else out) ++ (c :: rest).takeWhile (fun b => b != Separator)) dotdot := by
  rw [cleanLoop]

/-- On a rooted path the loop of `Clean` can be run in two parts when the
path is cut in front of a separator. -/
theorem cleanLoop_append (s : List Byte) (dotdot : Nat) :
    ∀ (f : Nat) (t out : List Byte) (g : Nat), t.length ≤ f → s.length + 1 ≤ g →
    cleanLoop true (f + g) (t ++ Separator :: s) out dotdot =
      cleanLoop true g (Separator :: s) (cleanLoop true f t out dotdot) dotdot := by
  intro f
  induction f with
  | zero =>
    intro t out g ht _
    have : t = [] := List.length_eq_zero.mp (by omega)
    subst this
    simp [cleanLoop]
  | succ f ih =>
    intro t out g ht hg
    cases t with
    | nil =>
      have e : f + 1 + g = g + (f + 1) := by omega
      rw [e, List.nil_append, cleanLoop_fuel_add true g _ out dotdot (by simpa using hg)]
      simp [cleanLoop]
    | cons c rest =>
      have hr : rest.length ≤ f := by simpa using ht
      have e : f + 1 + g = (f + g) + 1 := by omega
      rw [e, List.cons_append, cleanLoop_cons true (f + g), cleanLoop_cons true f]
      by_cases hc : c = Separator
      · simp only [hc, if_true]
        exact ih rest out g hr hg
      · have e1 : (c :: (rest ++ Separator :: s)).takeWhile (fun b => b != Separator) =
            (c :: rest).takeWhile (fun b => b != Separator) :=
          takeWhile_append_stop _ Separator s (by decide) (c :: rest)
        have e2 : (c :: (rest ++ Separator :: s)).dropWhile (fun b => b != Separator) =
            (c :: rest).dropWhile (fun b => b != Separator) ++ Separator :: s :=
          dropWhile_append_stop _ Separator s (by decide) (c :: rest)
        have hd : ((c :: rest).dropWhile (fun b => b != Separator)).length ≤ f := by
          rw [dropWhile_cons_ne c rest hc]
          exact le_trans (List.dropWhile_sublist _).length_le hr
        rw [e1, e2]
        have htl : rest.tail.length ≤ f := by simp; omega
        simp only [apply_ite (fun o => cleanLoop true g (Separator :: s) o dotdot)]
        rw [← ih rest out g hr hg, ← ih rest.tail out g htl hg, ← ih rest.tail _ g htl hg,
          ← ih _ _ g hd hg]
        cases rest with
        | nil => simp [Separator, dot]
        | cons d r2 =>
          cases r2 with
          | nil => simp [Separator, dot]
          | cons x r3 => simp [Separator, dot]

/-- For an absolute, clean root, cleaning the root followed by a separator and
a tail that the loop passes over yields the root. -/
theorem Clean_root_append (root s : List Byte) (habs : root.head? = some Separator)
    (hclean : Clean root = root)
    (hs : cleanLoop true (s.length + 1) (Separator :: s) root 1 = root) :
    Clean (root ++ Separator :: s) = root := by
  cases root with
  | nil => simp at habs
  | cons c t =>
    have hc : c = Separator := by simpa using habs
    subst hc
    have hloop : cleanLoop true (t.length + 1) t [Separator] 1 = Separator :: t := by
      have h := hclean
      simp only [Clean, List.head?_cons, List.length_cons, List.tail_cons, if_true] at h
      by_cases ho : cleanLoop true (t.length + 1) t [Separator] 1 = []
      · rw [if_pos ho] at h
        exact absurd h (by simp [Separator, dot])
      · rw [if_neg ho] at h
        exact h
    have hfuel : (Separator :: t ++ Separator :: s).length =
        (t.length + 1) + (s.length + 1) := by
      simp; omega
    have hne : Separator :: t ≠ [] := by simp
    simp only [Clean, List.cons_append, List.head?_cons, List.tail_cons, if_true]
    rw [← List.cons_append, hfuel,
      cleanLoop_append s 1 (t.length + 1) t [Separator] (s.length + 1) (by omega) (by omega),
      hloop, hs]
    simp

/-- C10: for an absolute, clean root, the empty path and `.` both resolve to
the root itself and pass the containment check, in receive-mode target
resolution and in send-mode source resolution. -/
theorem resolve_empty_and_dot (root : List Byte) (habs : root.head? = some Separator)
    (hclean : Clean root = root) :
    (receiveTarget root (str "rcp -t " ++ []) = root ∧
      HasPrefix (receiveTarget root (str "rcp -t " ++ [])) root = true) ∧
    (receiveTarget root (str "rcp -t " ++ str ".") = root ∧
      HasPrefix (receiveTarget root (str "rcp -t " ++ str ".")) root = true) ∧
    (sendSource root (str "rcp -f " ++ []) = root ∧
      HasPrefix (sendSource root (str "rcp -f " ++ [])) root = true) ∧
    (sendSource root (str "rcp -f " ++ str ".") = root ∧
      HasPrefix (sendSource root (str "rcp -f " ++ str ".")) root = true) := by
  have hne : root ≠ [] := by
    intro e; simp [e] at habs
  have hself : HasPrefix root root = true := by
    rw [HasPrefix, List.isPrefixOf_iff_prefix]
  have h0 : Clean (root ++ Separator :: []) = root :=
    Clean_root_append root [] habs hclean (by simp [cleanLoop])
  have h1 : Clean (root ++ Separator :: [Separator]) = root :=
    Clean_root_append root [Separator] habs hclean (by simp [cleanLoop])
  have h2 : Clean (root ++ Separator :: [dot]) = root :=
    Clean_root_append root [dot] habs hclean (by simp [cleanLoop, Separator, dot])
  have r0 : receiveTarget root (str "rcp -t " ++ []) = root := by
    have e : TrimPrefix (str "rcp -t " ++ []) (str "rcp -t ") = [] := TrimPrefix_append _ []
    simp only [receiveTarget, e, Join, List.length_nil, true_or, if_true]
    simp only [hne, ne_eq, not_false_eq_true, if_true]
    have e2 : root ++ [Separator] ++ str "/" = root ++ Separator :: [Separator] := by
      simp [str, Separator]
    rw [e2, h1, hclean]
  have r1 : receiveTarget root (str "rcp -t " ++ str ".") = root := by
    have e : TrimPrefix (str "rcp -t " ++ str ".") (str "rcp -t ") = str "." :=
      TrimPrefix_append _ _
    simp only [receiveTarget, e, Join, or_true, if_true]
    simp only [hne, ne_eq, not_false_eq_true, if_true]
    have e2 : root ++ [Separator] ++ str "/" = root ++ Separator :: [Separator] := by
      simp [str, Separator]
    rw [e2, h1, hclean]
  have s0 : sendSource root (str "rcp -f " ++ []) = root := by
    have e : TrimPrefix (str "rcp -f " ++ []) (str "rcp -f ") = [] := TrimPrefix_append _ []
    simp only [sendSource, e, Join]
    simp only [hne, ne_eq, not_false_eq_true, if_true]
    have e2 : root ++ [Separator] ++ [] = root ++ Separator :: [] := by simp
    rw [e2, h0, hclean]
  have s1 : sendSource root (str "rcp -f " ++ str ".") = root := by
    have e : TrimPrefix (str "rcp -f " ++ str ".") (str "rcp -f ") = str "." :=
      TrimPrefix_append _ _
    simp only [sendSource, e, Join]
    simp only [hne, ne_eq, not_false_eq_true, if_true]
    have e2 : root ++ [Separator] ++ str "." = root ++ Separator :: [dot] := by
      simp [str, dot]
    rw [e2, h2, hclean]
  exact ⟨⟨r0, r0.symm ▸ hself⟩, ⟨r1, r1.symm ▸ hself⟩, ⟨s0, s0.symm ▸ hself⟩,
    ⟨s1, s1.symm ▸ hself⟩⟩

/-- Witness of C10 on the root `/srv/data`. -/
theorem resolve_empty_and_dot_witness :
    (receiveTarget demoRoot (str "rcp -t " ++ []) = demoRoot ∧
      HasPrefix (receiveTarget demoRoot (str "rcp -t " ++ [])) demoRoot = true) ∧
    (receiveTarget demoRoot (str "rcp -t " ++ str ".") = demoRoot ∧
      HasPrefix (receiveTarget demoRoot (str "rcp -t " ++ str ".")) demoRoot = true) ∧
    (sendSource demoRoot (str "rcp -f " ++ []) = demoRoot ∧
      HasPrefix (sendSource demoRoot (str "rcp -f " ++ [])) demoRoot = true) ∧
    (sendSource demoRoot (str "rcp -f " ++ str ".") = demoRoot ∧
      HasPrefix (sendSource demoRoot (str "rcp -f " ++ str ".")) demoRoot = true) :=
  resolve_empty_and_dot demoRoot (by decide) (by decide)

/-! ### The file header -/

/-- The accumulated value only grows along the digits. -/
theorem foldl_digits_ge (base : Nat) (hb : 1 ≤ base) : ∀ (cs : List Nat) (n : Nat),
    n ≤ cs.foldl (fun acc c => acc * base + (c - 48)) n
  | [], n => Nat.le_refl n
  | c :: cs, n => by
    have h1 := foldl_digits_ge base hb cs (n * base + (c - 48))
    have h2 : n ≤ n * base := Nat.le_mul_of_pos_right n hb
    simp only [List.foldl_cons]
    omega

/-- On digits of the base whose value fits, the loop of `ParseUint` yields the
value. -/
theorem parseUintLoop_digits (base maxVal : Nat) (hb : 2 ≤ base) (hb10 : base ≤ 10)
    (hmax : maxVal < 2 ^ 64) : ∀ (ds : List Nat) (n : Nat),
    (∀ c : Nat, c ∈ ds → 48 ≤ c ∧ c < 48 + base) →
    ds.foldl (fun acc c => acc * base + (c - 48)) n ≤ maxVal →
    parseUintLoop base maxVal ds n = .ok (ds.foldl (fun acc c => acc * base + (c - 48)) n)
  | [], n, _, _ => rfl
  | c :: cs, n, hd, hv => by
    have hc := hd c (List.mem_cons_self c cs)
    have hdig : digitVal c = some (c - 48) := by
      have : 48 ≤ c ∧ c ≤ 57 := ⟨hc.1, by omega⟩
      simp [digitVal, this]
    have hge := foldl_digits_ge base (by omega) cs (n * base + (c - 48))
    simp only [List.foldl_cons] at hv
    have hle : n * base + (c - 48) ≤ maxVal := le_trans hge hv
    have hcut : ¬ ((2 ^ 64 - 1) / base + 1 ≤ n) := by
      have h1 : n * base ≤ 2 ^ 64 - 1 := by omega
      have h2 : n ≤ (2 ^ 64 - 1) / base := (Nat.le_div_iff_mul_le (by omega)).mpr h1
      omega
    have hmod : (n * base + (c - 48)) % 2 ^ 64 = n * base + (c - 48) :=
      Nat.mod_eq_of_lt (by omega)
    have hlt : ¬ (n * base + (c - 48) < n * base ∨ maxVal < n * base + (c - 48)) := by omega
    have hbd : ¬ (base ≤ c - 48) := by omega
    have ih := parseUintLoop_digits base maxVal hb hb10 hmax cs (n * base + (c - 48))
      (fun x hx => hd x (List.mem_cons_of_mem c hx)) hv
    simp only [parseUintLoop, hdig, hbd, hcut, hmod, hlt, if_false, List.foldl_cons]
    exact ih

/-- On a numeral whose value is below the bound of the signed type,
`ParseInt` yields the value. -/
theorem ParseInt_numeral (base bitSize : Nat) (hb : 2 ≤ base) (hb10 : base ≤ 10)
    (hbit : 2 ^ (bitSize - 1) ≤ 2 ^ bitSize - 1) (hbit64 : 2 ^ bitSize - 1 < 2 ^ 64)
    (ds : List Nat) (hnum : isNumeral base ds) (hval : numVal base ds < 2 ^ (bitSize - 1)) :
    ParseInt ds base bitSize = .ok (numVal base ds : Int) := by
  obtain ⟨hne, hd⟩ := hnum
  cases ds with
  | nil => exact absurd rfl hne
  | cons c cs =>
    have hc := hd c (List.mem_cons_self c cs)
    have h43 : c ≠ 43 := by omega
    have h45 : c ≠ 45 := by omega
    have hu : ParseUint (c :: cs) base bitSize = .ok (numVal base (c :: cs)) := by
      simp only [ParseUint, if_neg hne]
      exact parseUintLoop_digits base (2 ^ bitSize - 1) hb hb10 hbit64 (c :: cs) 0 hd
        (by unfold numVal at hval; omega)
    have hcut : ¬ (2 ^ (bitSize - 1) ≤ numVal base (c :: cs)) := by omega
    simp [ParseInt, h43, h45, hu, hcut]

/-- Every white-space encoding starts with a byte up to the space or from
0xC2 on, and holds no space byte before its last byte. -/
theorem spaceRunes_shape : ∀ e ∈ spaceRunes,
    e ≠ [] ∧ (e.headD 0 ≤ 32 ∨ 0xC2 ≤ e.headD 0) ∧ 32 ∉ e.dropLast := by
  decide

/-- A slice that starts with a byte between the space and 0xC2 does not start
with white space. -/
theorem leadingSpace_eq_zero (c : Nat) (s : List Byte) (h1 : 32 < c) (h2 : c < 0xC2) :
    leadingSpace (c :: s) = 0 := by
  have hnone : spaceRunes.find? (fun e => e.isPrefixOf (c :: s)) = none := by
    rw [List.find?_eq_none]
    intro e he hp
    obtain ⟨hne, hh, _⟩ := spaceRunes_shape e he
    cases e with
    | nil => exact hne rfl
    | cons a t =>
      have hp1 : a :: t <+: c :: s := List.isPrefixOf_iff_prefix.mp hp
      have hac : @Eq Nat a c := (List.cons_prefix_cons.mp hp1).1
      have ha : @LE.le Nat _ a 32 ∨ @LE.le Nat _ 0xC2 a := hh
      omega
  simp [leadingSpace, hnone]

/-- A slice that does not start with white space is not trimmed on the left. -/
theorem trimLeftSpace_id (s : List Byte) (h : leadingSpace s = 0) :
    ∀ fuel, trimLeftSpace fuel s = s
  | 0 => rfl
  | fuel + 1 => by simp [trimLeftSpace, h]

/-- A slice that does not end in white space has no trailing rune to cut. -/
theorem trailingSpace_eq_zero (s : List Byte) (h : endsInSpace s = false) :
    trailingSpace s = 0 := by
  have hnone : spaceRunes.find? (fun e => e.isSuffixOf s) = none := by
    rw [List.find?_eq_none]
    exact List.any_eq_false.mp h
  simp [trailingSpace, hnone]

/-- A slice that does not end in white space is not trimmed on the right. -/
theorem trimRightSpace_id (s : List Byte) (h : endsInSpace s = false) :
    ∀ fuel, trimRightSpace fuel s = s
  | 0 => rfl
  | fuel + 1 => by simp [trimRightSpace, trailingSpace_eq_zero s h]

/-- A slice that starts with a byte between the space and 0xC2 and does not
end in white space is left as it is by `TrimSpace`. -/
theorem TrimSpace_id (c : Nat) (s : List Byte) (h1 : 32 < c) (h2 : c < 0xC2)
    (h : endsInSpace (c :: s) = false) : TrimSpace (c :: s) = c :: s := by
  simp only [TrimSpace, trimLeftSpace_id _ (leadingSpace_eq_zero c s h1 h2),
    trimRightSpace_id _ h]

/-- Behind a space, a non-empty slice that does not end in white space keeps
the whole from ending in white space. -/
theorem endsInSpace_append (x name : List Byte) (hne : name ≠ [])
    (h : endsInSpace name = false) : endsInSpace (x ++ 32 :: name) = false := by
  cases hc : endsInSpace (x ++ 32 :: name) with
  | false => rfl
  | true =>
    exfalso
    obtain ⟨e, he, hsuf⟩ := List.any_eq_true.mp hc
    have hs : e <:+ x ++ 32 :: name := List.isSuffixOf_iff_suffix.mp hsuf
    have hn : name <:+ x ++ 32 :: name := ⟨x ++ [32], by simp⟩
    have hn1 : 32 :: name <:+ x ++ 32 :: name := List.suffix_append x _
    by_cases hl : e.length ≤ name.length
    · have : e <:+ name := List.suffix_of_suffix_length_le hs hn hl
      exact List.any_eq_false.mp h e he (List.isSuffixOf_iff_suffix.mpr this)
    · have hlen : (32 :: name).length ≤ e.length := by simp; omega
      obtain ⟨pre, hpre⟩ := List.suffix_of_suffix_length_le hn1 hs hlen
      have hmem : 32 ∈ e.dropLast := by
        have hcons : (32 :: name : List Byte) ≠ [] := List.cons_ne_nil 32 name
        rw [← hpre, List.dropLast_append_of_ne_nil pre hcons,
          List.dropLast_cons_of_ne_nil hne]
        simp
      exact (spaceRunes_shape e he).2.2 hmem

/-- Cutting at the first separator splits off a leading part free of it. -/
theorem cutAt_append (sep : Byte) : ∀ (a b : List Byte), sep ∉ a →
    cutAt sep (a ++ sep :: b) = some (a, b)
  | [], b, _ => by simp [cutAt]
  | c :: a, b, h => by
    have hc : c ≠ sep := fun e => h (by simp [e])
    have ih := cutAt_append sep a b (fun e => h (by simp [e]))
    simp [cutAt, hc, ih]

/-- The digits of a numeral are not spaces and not newlines. -/
theorem isNumeral_not_mem (base : Nat) (ds : List Nat) (h : isNumeral base ds) :
    32 ∉ ds ∧ 10 ∉ ds := by
  constructor
  · intro hm
    have := h.2 32 hm
    omega
  · intro hm
    have := h.2 10 hm
    omega

/-- A one-byte suffix test against a slice with a known last byte. -/
theorem isSuffixOf_singleton_snoc (a b : Byte) (s : List Byte) :
    [a].isSuffixOf (s ++ [b]) = decide (a = b) := by
  by_cases h : a = b
  · subst h
    simp only [decide_True]
    exact List.isSuffixOf_iff_suffix.mpr (List.suffix_append s [a])
  · simp only [h, decide_False]
    cases hc : [a].isSuffixOf (s ++ [b]) with
    | false => rfl
    | true =>
      obtain ⟨t, ht⟩ := List.isSuffixOf_iff_suffix.mp hc
      have := congrArg List.getLast? ht
      simp at this
      exact absurd this h

/-- A slice that ends in a newline ends in a white-space rune one byte wide. -/
theorem trailingSpace_newline (s : List Byte) : trailingSpace (s ++ [10]) = 1 := by
  have h9 : [9].isSuffixOf (s ++ [10]) = false := by
    rw [isSuffixOf_singleton_snoc]; decide
  have h10 : [10].isSuffixOf (s ++ [10]) = true := by
    rw [isSuffixOf_singleton_snoc]; decide
  simp [trailingSpace, spaceRunes, List.find?, h9, h10]

/-- The line of a header that starts with a byte between the space and 0xC2
and does not end in white space is trimmed to the header. -/
theorem TrimSpace_line (c : Nat) (s : List Byte) (h1 : 32 < c) (h2 : c < 0xC2)
    (h : endsInSpace (c :: s) = false) : TrimSpace (c :: s ++ [10]) = c :: s := by
  have hl : trimLeftSpace (c :: s ++ [10]).length (c :: s ++ [10]) = c :: s ++ [10] :=
    trimLeftSpace_id _ (leadingSpace_eq_zero c (s ++ [10]) h1 h2) _
  have hlen : (c :: s ++ [10]).length = (c :: s).length + 1 := by simp
  simp only [TrimSpace, hl]
  rw [hlen, trimRightSpace, trailingSpace_newline]
  simp only [one_ne_zero, if_false, hlen, Nat.add_sub_cancel]
  rw [List.take_left' rfl]
  exact trimRightSpace_id _ h _

/-- C8: for the header `C`, an octal numeral `m` of value below `2^31`, a
space, a decimal numeral `s` of value below `2^63`, a space, and a non-empty
name without newline that does not end in white space (spaces inside and in
front are allowed), the line read from the connection is trimmed to the
header, and `handleBinaryFileTransfer` parses from it the mode `m` read in
base 8, the size `s` read in base 10 and the name as it stands. -/
theorem parseFileInfo_header (m s name rest : List Byte)
    (hm : isNumeral 8 m) (hmv : numVal 8 m < 2 ^ 31)
    (hs : isNumeral 10 s) (hsv : numVal 10 s < 2 ^ 63)
    (hne : name ≠ []) (htrail : endsInSpace name = false) (hnl : 10 ∉ name) :
    cutAt 10 ((str "C" ++ m ++ str " " ++ s ++ str " " ++ name) ++ 10 :: rest) =
      some (str "C" ++ m ++ str " " ++ s ++ str " " ++ name, rest) ∧
    TrimSpace ((str "C" ++ m ++ str " " ++ s ++ str " " ++ name) ++ [10]) =
      str "C" ++ m ++ str " " ++ s ++ str " " ++ name ∧
    parseFileInfo (str "C" ++ m ++ str " " ++ s ++ str " " ++ name) =
      .ok ((numVal 8 m : Int), (numVal 10 s : Int), name) := by
  have ehdr : str "C" ++ m ++ str " " ++ s ++ str " " ++ name =
      67 :: (m ++ 32 :: (s ++ 32 :: name)) := by simp [str]
  obtain ⟨hm32, hm10⟩ := isNumeral_not_mem 8 m hm
  obtain ⟨hs32, hs10⟩ := isNumeral_not_mem 10 s hs
  have hend : endsInSpace (67 :: (m ++ 32 :: (s ++ 32 :: name))) = false := by
    have e : 67 :: (m ++ 32 :: (s ++ 32 :: name)) = (67 :: (m ++ 32 :: s)) ++ 32 :: name := by
      simp
    rw [e]; exact endsInSpace_append _ name hne htrail
  have hbody : endsInSpace (m ++ 32 :: (s ++ 32 :: name)) = false := by
    have e : m ++ 32 :: (s ++ 32 :: name) = (m ++ 32 :: s) ++ 32 :: name := by simp
    rw [e]; exact endsInSpace_append _ name hne htrail
  rw [ehdr]
  refine ⟨?_, ?_, ?_⟩
  · apply cutAt_append
    simp only [List.mem_cons, List.mem_append, not_or]
    exact ⟨by decide, hm10, by decide, hs10, by decide, hnl⟩
  · exact TrimSpace_line 67 _ (by decide) (by decide) hend
  · obtain ⟨hmne, hmd⟩ := hm
    cases m with
    | nil => exact absurd rfl hmne
    | cons d m1 =>
      have hd := hmd d (List.mem_cons_self d m1)
      have htrim : TrimSpace (d :: (m1 ++ 32 :: (s ++ 32 :: name))) =
          d :: (m1 ++ 32 :: (s ++ 32 :: name)) :=
        TrimSpace_id d _ (by omega) (by omega) hbody
      have hpm := ParseInt_numeral 8 32 (by decide) (by decide) (by decide) (by decide)
        (d :: m1) ⟨hmne, hmd⟩ hmv
      have hps := ParseInt_numeral 10 64 (by decide) (by decide) (by decide) (by decide)
        s hs hsv
      have hsplit : SplitN 32 3 (d :: (m1 ++ 32 :: (s ++ 32 :: name))) = [d :: m1, s, name] := by
        have c1 := cutAt_append 32 (d :: m1) (s ++ 32 :: name) hm32
        have c2 := cutAt_append 32 s name hs32
        simp only [List.cons_append] at c1
        simp [SplitN, c1, c2]
      simp only [parseFileInfo, List.drop_succ_cons, List.drop_zero, List.cons_append, htrim,
        hsplit, hpm, hps]

/-- Witness of C8: the line `C0644 5 hello.txt` parses to mode 0o644, size 5
and name `hello.txt`. -/
theorem parseFileInfo_header_witness :
    cutAt 10 (str "C0644 5 hello.txt\nworld\x00") = some (str "C0644 5 hello.txt", str "world\x00") ∧
    TrimSpace (str "C0644 5 hello.txt\n") = str "C0644 5 hello.txt" ∧
    parseFileInfo (str "C0644 5 hello.txt") = .ok (0o644, 5, str "hello.txt") :=
  parseFileInfo_header (str "0644") (str "5") (str "hello.txt") (str "world\x00")
    (by decide) (by decide) (by decide) (by decide) (by decide) (by decide) (by decide)

/-! ### The fuel is enough: every handler returns -/

/-- A cut at a separator splits the slice around that separator. -/
theorem cutAt_eq_some (sep : Byte) : ∀ (s a b : List Byte),
    cutAt sep s = some (a, b) → s = a ++ sep :: b
  | [], a, b, h => by simp [cutAt] at h
  | c :: cs, a, b, h => by
    by_cases hc : c = sep
    · simp only [cutAt, hc, if_true, Option.some.injEq, Prod.mk.injEq] at h
      obtain ⟨rfl, rfl⟩ := h
      simp [hc]
    · cases hr : cutAt sep cs with
      | none => simp [cutAt, hc, hr] at h
      | some ab =>
        obtain ⟨a1, b1⟩ := ab
        simp only [cutAt, hc, if_false, hr, Option.some.injEq, Prod.mk.injEq] at h
        obtain ⟨rfl, rfl⟩ := h
        have ih := cutAt_eq_some sep cs a1 b1 hr
        simp [ih]

/-- A read into the working buffer returns at least one byte. -/
theorem readCount_pos (w : World) : 1 ≤ readCount w := by
  unfold readCount
  omega

/-- With more fuel than unread input the receive loop returns, and it does
not add to the unread input. -/
theorem receiveLoop_total (filePath : List Byte) (fileSize : Int) :
    ∀ (fuel : Nat) (total : Int) (w : World), w.input.length < fuel →
    ∃ r, receiveLoop filePath fileSize fuel total w = some r ∧
      r.2.input.length ≤ w.input.length := by
  intro fuel
  induction fuel with
  | zero => intro _ _ h; omega
  | succ fuel ih =>
    intro total w hfuel
    unfold receiveLoop
    by_cases hlt : total < fileSize
    · by_cases hin : w.input = []
      · by_cases hp : w.peerClosed = true
        · exact ⟨(none, w), by simp [hlt, hin, hp], Nat.le_refl _⟩
        · exact ⟨(some .readFailed, w), by simp [hlt, hin, hp], Nat.le_refl _⟩
      · have hpos : 0 < w.input.length := List.length_pos.mpr hin
        have hn := readCount_pos w
        by_cases hw : w.fs.writeOk filePath = true
        · obtain ⟨r, hr, hle⟩ := ih (total + readCount w)
            (({ w with input := w.input.drop (readCount w), reads := w.reads.tail } : World).call
              (.write filePath (w.input.take (readCount w))))
            (by simp only [World.call_input, List.length_drop]; omega)
          refine ⟨r, by simp [hlt, hin, hw, hr], ?_⟩
          simp only [World.call_input, List.length_drop] at hle
          omega
        · refine ⟨_, by simp only [hlt, hin, hw, if_true, if_false]; rfl, ?_⟩
          simp only [World.call_input, List.length_drop]
          omega
    · exact ⟨(none, w), by simp [hlt], Nat.le_refl _⟩

/-- Function `handleBinaryFileTransfer` returns, and it does not add to the
unread input. -/
theorem handleBinaryFileTransfer_total (root targetPath fileInfo : List Byte) (w : World) :
    ∃ r, handleBinaryFileTransfer root targetPath fileInfo w = some r ∧
      r.2.input.length ≤ w.input.length := by
  unfold handleBinaryFileTransfer
  cases hp : parseFileInfo fileInfo with
  | error e => exact ⟨(some e, w), rfl, Nat.le_refl _⟩
  | ok v =>
    obtain ⟨fileMode, fileSize, fileName⟩ := v
    simp only
    cases h1 : HasPrefix (Clean (Join targetPath fileName)) root with
    | false =>
      refine ⟨(some .outsideRoot, w), ?_, Nat.le_refl _⟩
      simp only [Bool.false_eq_true, not_false_eq_true, if_true]
    | true =>
      cases h2 : w.fs.mkdirAllOk (Dir (Clean (Join targetPath fileName))) with
      | false =>
        refine ⟨(some .mkdirFailed,
          w.call (.mkdirAll (Dir (Clean (Join targetPath fileName))) 0o755)), ?_, ?_⟩
        · simp only [Bool.false_eq_true, not_false_eq_true, not_true_eq_false, if_true, if_false]
        · simp
      | true =>
        cases h3 : w.fs.openFileOk (Clean (Join targetPath fileName)) with
        | false =>
          refine ⟨(some .createFailed,
            (w.call (.mkdirAll (Dir (Clean (Join targetPath fileName))) 0o755)).call
              (.openFile (Clean (Join targetPath fileName)) (fileMode % 2 ^ 32).toNat)), ?_, ?_⟩
          · simp only [Bool.false_eq_true, not_false_eq_true, not_true_eq_false, if_true,
              if_false]
          · simp
        | true =>
          obtain ⟨r, hr, hle⟩ := receiveLoop_total (Clean (Join targetPath fileName)) fileSize
            ((((w.call (.mkdirAll (Dir (Clean (Join targetPath fileName))) 0o755)).call
              (.openFile (Clean (Join targetPath fileName)) (fileMode % 2 ^ 32).toNat)).write
                [0]).input.length + 1) 0
            (((w.call (.mkdirAll (Dir (Clean (Join targetPath fileName))) 0o755)).call
              (.openFile (Clean (Join targetPath fileName)) (fileMode % 2 ^ 32).toNat)).write [0])
            (Nat.lt_succ_self _)
          simp only [World.write_input, World.call_input] at hr hle
          simp only [not_true_eq_false, if_false, World.write_input, World.call_input, hr]
          obtain ⟨e, w4⟩ := r
          cases e with
          | some e => exact ⟨_, rfl, hle⟩
          | none =>
            refine ⟨_, rfl, ?_⟩
            simp only [World.write_input, List.length_tail]
            simp only at hle
            omega

/-- With more fuel than unread input the loop of the receive session
returns. -/
theorem receiveSession_total (root fullTargetPath : List Byte) :
    ∀ (fuel : Nat) (w : World), w.input.length < fuel →
    ∃ w1, receiveSession root fullTargetPath fuel w = some w1 := by
  intro fuel
  induction fuel with
  | zero => intro _ h; omega
  | succ fuel ih =>
    intro w hfuel
    unfold receiveSession
    cases hcut : cutAt 10 w.input with
    | none => exact ⟨_, rfl⟩
    | some lr =>
      obtain ⟨line, rest⟩ := lr
      have hlen : rest.length < w.input.length := by
        rw [cutAt_eq_some 10 w.input line rest hcut]
        simp; omega
      simp only
      cases hC : HasPrefix (TrimSpace (line ++ [10])) (str "C") with
      | true =>
        obtain ⟨r, hr, hle⟩ := handleBinaryFileTransfer_total root fullTargetPath
          (TrimSpace (line ++ [10])) { w with input := rest }
        obtain ⟨e, w2⟩ := r
        simp only at hle
        cases e with
        | some e => exact ⟨w2, by simp only [if_true, hr]⟩
        | none =>
          obtain ⟨w3, h3⟩ := ih w2 (by omega)
          exact ⟨w3, by simp only [if_true, hr, h3]⟩
      | false =>
        cases hE : HasPrefix (TrimSpace (line ++ [10])) (str "E") with
        | true =>
          exact ⟨({ w with input := rest } : World).write [0],
            by simp only [Bool.false_eq_true, if_true, if_false]⟩
        | false =>
          obtain ⟨w3, h3⟩ := ih { w with input := rest } (by simp only; omega)
          exact ⟨w3, by simp only [Bool.false_eq_true, if_false, h3]⟩

/-- Function `handleReceiveFile` returns. -/
theorem handleReceiveFile_total (root command : List Byte) (w : World) :
    ∃ w1, handleReceiveFile root command w = some w1 := by
  unfold handleReceiveFile
  cases h : HasPrefix (receiveTarget root command) root with
  | true =>
    simp only [h, not_true_eq_false, if_false]
    exact receiveSession_total root (receiveTarget root command)
      (((w.write [0]).write [0]).input.length + 1) ((w.write [0]).write [0])
      (Nat.lt_succ_self _)
  | false => exact ⟨w, by simp only [h, Bool.false_eq_true, not_false_eq_true, if_true]⟩

/-- With more fuel than unread file content the send loop returns. -/
theorem sendLoop_total (size : Nat) (readOk : Bool) :
    ∀ (fuel totalSent : Nat) (remaining : List Byte) (w : World), remaining.length < fuel →
    ∃ r, sendLoop size readOk fuel totalSent remaining w = some r := by
  intro fuel
  induction fuel with
  | zero => intro _ _ _ h; omega
  | succ fuel ih =>
    intro totalSent remaining w hfuel
    unfold sendLoop
    by_cases hlt : totalSent < size
    · cases readOk with
      | false =>
        exact ⟨(false, w), by simp only [hlt, if_true, Bool.false_eq_true, not_false_eq_true]⟩
      | true =>
        by_cases hn : min bufferSize remaining.length = 0
        · exact ⟨(true, w), by simp only [hlt, hn, if_true, not_true_eq_false, if_false]⟩
        · obtain ⟨r, h⟩ := ih (totalSent + min bufferSize remaining.length)
            (remaining.drop (min bufferSize remaining.length))
            (w.write (remaining.take (min bufferSize remaining.length)))
            (by simp only [List.length_drop]; omega)
          exact ⟨r, by simp only [hlt, hn, if_true, not_true_eq_false, if_false, h]⟩
    · exact ⟨(true, w), by simp only [hlt, if_false]⟩

/-- Function `handleSendFile` returns. -/
theorem handleSendFile_total (root command : List Byte) (w : World) :
    ∃ w1, handleSendFile root command w = some w1 := by
  unfold handleSendFile
  cases h : HasPrefix (sendSource root command) root with
  | false => exact ⟨w, by simp only [h, Bool.false_eq_true, not_false_eq_true, if_true]⟩
  | true =>
    simp only [h, not_true_eq_false, if_false]
    cases hf : w.fs.lookup (sendSource root command) with
    | none => exact ⟨_, rfl⟩
    | some file =>
      simp only
      cases hs : file.statOk with
      | false =>
        exact ⟨_, by simp only [Bool.false_eq_true, not_false_eq_true, if_true]; rfl⟩
      | true =>
        simp only [not_true_eq_false, if_false, World.write_input, World.call_input]
        cases hin : w.input with
        | nil => exact ⟨_, rfl⟩
        | cons ack rest =>
          simp only
          by_cases ha : ack = 0
          · obtain ⟨r, hr⟩ := sendLoop_total file.size file.readOk (file.content.length + 1) 0
              file.content
              { (((w.call (.osOpen (sendSource root command))).call
                  (.stat (sendSource root command))).write [0]).write
                    (fileInfoStr (file.mode % 512) file.size (Base (sendSource root command)))
                with input := rest } (Nat.lt_succ_self _)
            obtain ⟨ok, w6⟩ := r
            simp only [ha, ne_eq, not_true_eq_false, if_false, hr]
            cases ok with
            | true => exact ⟨_, rfl⟩
            | false => exact ⟨_, rfl⟩
          · exact ⟨_, by simp only [ha, ne_eq, not_false_eq_true, if_true]; rfl⟩

/-- Function `handleConnection` returns on every input. -/
theorem handleConnection_total (root : List Byte) (w : World) :
    ∃ w1, handleConnection root w = some w1 := by
  unfold handleConnection
  cases hr : readCommand w.input [] with
  | none => exact ⟨_, rfl⟩
  | some fr =>
    obtain ⟨fullCommand, rest⟩ := fr
    simp only
    by_cases h4 : (Split 0 fullCommand).length < 4
    · exact ⟨_, by simp only [h4, if_true]; rfl⟩
    · simp only [h4, if_false]
      cases ht : HasPrefix ((Split 0 fullCommand).getD 3 []) (str "rcp -t ") with
      | true =>
        simp only [if_true]
        exact handleReceiveFile_total root _ _
      | false =>
        simp only [Bool.false_eq_true, if_false]
        cases hf : HasPrefix ((Split 0 fullCommand).getD 3 []) (str "rcp -f ") with
        | true =>
          simp only [if_true]
          exact handleSendFile_total root _ _
        | false => exact ⟨_, by simp only [Bool.false_eq_true, if_false]; rfl⟩

end Rcpd
